import Mathlib

/-!
Shallow embedding of the MLP neural-network engine of
`src/rete_neurale_mlp/rete_neurale.rs`: the data model, the forward pass,
backpropagation, and the line-oriented text persistence codec, together with
theorems settling the specification's claims.

Modelling conventions:
* `f64` scalars are modelled by an arbitrary `LinearOrderedCommRing α`
  (concrete evaluations instantiate `α := ℤ`).  The transcendental scalar
  primitives used by the Sigmoide/Tanh/Softplus/Swish activation functions
  (`exp`, `ln`, `tanh` and the reciprocal used for `1/(1+exp(-x))`) are
  collected, uninterpreted, in a `Prim` record: no claim depends on their
  pointwise values.
* Rust `Vec` indexing panics when out of bounds; it is modelled with
  `List.get?` and `Option` (a `none` result models the panic).  Operations
  whose index is provably in bounds at every call site use `List.getD`.
* Text is modelled as `List Char`; the `f64 → String` formatting of the Rust
  standard library is an explicit parameter `pr` of the serializer, and the
  `String → f64` conversion is modelled by a decimal-numeral parser returning
  a mantissa/decimal-places pair, converted to `α` by an explicit parameter
  `ofDec` of the deserializer.  Exponent and non-finite forms of the Rust
  float grammar are outside the subset exercised by the file format.
* `rand::thread_rng` draws are modelled by an explicit generator argument
  `rnd : ℕ → ℕ → ℕ → α` (layer, row, column).
-/

namespace ReteNeuraleMLP

/-! ## Character-list utilities (modelling the Rust `str` operations used) -/

/-- Model of Rust `str::split` with a string pattern (keeps empty pieces). -/
def chSplitOnAux (sep : List Char) : ℕ → List Char → List Char → List (List Char)
  | 0, acc, _ => [acc.reverse]
  | _ + 1, acc, [] => [acc.reverse]
  | fuel + 1, acc, c :: resto =>
    if sep.isPrefixOf (c :: resto) then
      acc.reverse :: chSplitOnAux sep fuel [] ((c :: resto).drop sep.length)
    else
      chSplitOnAux sep fuel (c :: acc) resto

/-- Split `l` on every occurrence of `sep` (Rust `str::split`). -/
def chSplitOn (l sep : List Char) : List (List Char) :=
  if sep = [] then [l] else chSplitOnAux sep (l.length + 1) [] l

/-- Model of Rust `str::replace`: replace every occurrence of `pat`, left to
right, by `rep`. -/
def chReplaceAux (pat rep : List Char) : ℕ → List Char → List Char
  | 0, l => l
  | _ + 1, [] => []
  | fuel + 1, c :: resto =>
    if pat.isPrefixOf (c :: resto) then
      rep ++ chReplaceAux pat rep fuel ((c :: resto).drop pat.length)
    else
      c :: chReplaceAux pat rep fuel resto

/-- Replace every occurrence of `pat` in `l` by `rep` (Rust `str::replace`). -/
def chReplace (l pat rep : List Char) : List Char :=
  if pat = [] then l else chReplaceAux pat rep (l.length + 1) l

/-- Model of Rust `str::trim`. -/
def chTrim (l : List Char) : List Char :=
  ((l.dropWhile Char.isWhitespace).reverse.dropWhile Char.isWhitespace).reverse

/-- Model of Rust `str::split_whitespace` (empty pieces discarded). -/
def chSplitWs : List Char → List Char → List (List Char)
  | acc, [] => if acc = [] then [] else [acc.reverse]
  | acc, c :: resto =>
    if c.isWhitespace then
      if acc = [] then chSplitWs [] resto else acc.reverse :: chSplitWs [] resto
    else
      chSplitWs (c :: acc) resto

/-- Numeric value of a decimal digit, `none` on any other character. -/
def cifra? (c : Char) : Option ℕ :=
  if '0' ≤ c ∧ c ≤ '9' then some (c.toNat - '0'.toNat) else none

/-- Value of a digit string (`none` if any character is not a digit; the
empty string yields `some 0` and emptiness is checked by the callers). -/
def cifreVal? : List Char → Option ℕ
  | [] => some 0
  | c :: resto =>
    match cifra? c, cifreVal? resto with
    | some d, some v => some (v + d * 10 ^ resto.length)
    | _, _ => none

/-- Model of Rust `str::parse::<usize>` restricted to plain digit strings. -/
def parseNat (l : List Char) : Option ℕ :=
  if l = [] then none else cifreVal? l

/-- Model of Rust `str::parse::<f64>` on the decimal subset written by the
codec: an optional sign, an integer digit run, and an optional fractional
digit run.  The value is returned as a mantissa and a number of decimal
places (the token denotes `m · 10^(-s)`). -/
def parseDec (l : List Char) : Option (ℤ × ℕ) :=
  let senzaSegno : List Char → Option (ℕ × ℕ) := fun resto =>
    match chSplitOn resto ['.'] with
    | [a] => if a = [] then none else (cifreVal? a).map (fun v => (v, 0))
    | [a, b] =>
      if a = [] ∧ b = [] then none
      else
        match cifreVal? a, cifreVal? b with
        | some x, some y => some (x * 10 ^ b.length + y, b.length)
        | _, _ => none
    | _ => none
  match l with
  | '-' :: resto => (senzaSegno resto).map (fun p => (-(p.1 : ℤ), p.2))
  | _ => (senzaSegno l).map (fun p => ((p.1 : ℤ), p.2))

/-- Decimal digit characters of a natural number (Rust `usize` `Display`). -/
def natCharsAux : ℕ → ℕ → List Char
  | 0, _ => []
  | fuel + 1, n =>
    if n < 10 then [Char.ofNat (48 + n)]
    else natCharsAux fuel (n / 10) ++ [Char.ofNat (48 + n % 10)]

/-- Decimal representation of a natural number. -/
def natChars (n : ℕ) : List Char := natCharsAux (n + 1) n

/-! ## Activation functions (`FunzioneAttivazione` and its implementors) -/

/-- The uninterpreted transcendental scalar primitives that the `f64`
implementations of Sigmoide/Tanh/Softplus/Swish rely on.  `inv` models the
`f64` division `1.0 / y` as `inv y`. -/
structure Prim (α : Type) where
  exp : α → α
  ln : α → α
  tanh : α → α
  inv : α → α

/-- The closed set of activation-function implementors of the source's
`FunzioneAttivazione` trait. -/
inductive FunzioneAttivazione (α : Type) where
  | Sigmoide
  | ReLU
  | LeakyReLU (alpha : α)
  | Tanh
  | Softplus
  | Swish
  | Nessuna
  | Lineare
deriving DecidableEq

variable {α : Type} [LinearOrderedCommRing α]

/-- `attiva` of each implementor (`x / (1 + e)` is written `x * inv (1 + e)`). -/
def attiva (p : Prim α) : FunzioneAttivazione α → α → α
  | .Sigmoide, x => p.inv (1 + p.exp (-x))
  | .ReLU, x => max x 0
  | .LeakyReLU a, x => if 0 < x then x else a * x
  | .Tanh, x => p.tanh x
  | .Softplus, x => p.ln (1 + p.exp x)
  | .Swish, x => x * p.inv (1 + p.exp (-x))
  | .Nessuna, x => x
  | .Lineare, x => x

/-- `derivata` of each implementor. -/
def derivata (p : Prim α) : FunzioneAttivazione α → α → α
  | .Sigmoide, x => p.inv (1 + p.exp (-x)) * (1 - p.inv (1 + p.exp (-x)))
  | .ReLU, x => if 0 < x then 1 else 0
  | .LeakyReLU a, x => if 0 < x then 1 else a
  | .Tanh, x => 1 - p.tanh x ^ 2
  | .Softplus, x => p.inv (1 + p.exp (-x))
  | .Swish, x =>
    p.inv (1 + p.exp (-x)) + x * p.inv (1 + p.exp (-x)) * (1 - p.inv (1 + p.exp (-x)))
  | .Nessuna, _ => 0
  | .Lineare, _ => 1

/-- `sigla` of each implementor (the stable code used by the codec). -/
def sigla : FunzioneAttivazione α → List Char
  | .Sigmoide => "Sigmoide".data
  | .ReLU => "ReLU".data
  | .LeakyReLU _ => "LeakyReLU".data
  | .Tanh => "Tanh".data
  | .Softplus => "Softplus".data
  | .Swish => "Swish".data
  | .Nessuna => "Null".data
  | .Lineare => "Lineare".data

/-- `alfa` of each implementor (`0.0` for all but `LeakyReLU`). -/
def alfa : FunzioneAttivazione α → α
  | .LeakyReLU a => a
  | _ => 0

/-! ## Matrices and vectors (`nalgebra::DMatrix`/`DVector`) -/

/-- A dynamically sized matrix; `righe` lists the rows.  `nrows`/`ncols` are
kept explicitly so that matrices with zero rows still carry their column
count, as `DMatrix` does. -/
structure Matrice (α : Type) where
  nrows : ℕ
  ncols : ℕ
  righe : List (List α)
deriving DecidableEq

/-- Dot product of two vectors. -/
def dotProd (a b : List α) : α := (List.zipWith (· * ·) a b).sum

/-- Matrix–vector product `m * v`. -/
def mulVec (m : Matrice α) (v : List α) : List α := m.righe.map (fun r => dotProd r v)

/-- Matrix transpose (`DMatrix::transpose`). -/
def transposeM (m : Matrice α) : Matrice α :=
  ⟨m.ncols, m.nrows, (List.range m.ncols).map (fun j => m.righe.map (fun r => r.getD j 0))⟩

/-- Outer product `d * uᵀ` of a column vector and a transposed vector. -/
def outer (d u : List α) : Matrice α :=
  ⟨d.length, u.length, d.map (fun x => u.map (fun y => x * y))⟩

/-- Scalar multiple of a matrix. -/
def smulM (c : α) (m : Matrice α) : Matrice α :=
  ⟨m.nrows, m.ncols, m.righe.map (List.map (fun x => c * x))⟩

/-- Entrywise matrix sum (`+=` of `nalgebra`, shapes matching at call sites). -/
def addM (a b : Matrice α) : Matrice α :=
  ⟨a.nrows, a.ncols, List.zipWith (List.zipWith (· + ·)) a.righe b.righe⟩

/-- Entrywise vector difference. -/
def subV (a b : List α) : List α := List.zipWith (· - ·) a b

/-- Entrywise vector product (`component_mul`). -/
def cmulV (a b : List α) : List α := List.zipWith (· * ·) a b

/-- `DMatrix::from_fn r c g`. -/
def fromFn (r c : ℕ) (g : ℕ → ℕ → α) : Matrice α :=
  ⟨r, c, (List.range r).map (fun i => (List.range c).map (g i))⟩

/-! ## The network data model -/

/-- Per-layer construction datum (`Strato`). -/
structure Strato (α : Type) where
  neuroni : ℕ
  funzione_attivazione : FunzioneAttivazione α
deriving DecidableEq

/-- The network (`ReteNeurale`). -/
structure ReteNeurale (α : Type) where
  strati : List (Matrice α)
  funzioni_attivazione : List (FunzioneAttivazione α)
  tasso_apprendimento : α
  dimensioni_strati : List ℕ
deriving DecidableEq

/-- `ReteNeurale::nuova`: the first layer's activation is replaced by
`Nessuna`; one random `dimensioni[i+1] × dimensioni[i]` weight matrix is
built per adjacent pair of sizes. -/
def nuova (info_strati : List (Strato α)) (tasso_apprendimento : α)
    (rnd : ℕ → ℕ → ℕ → α) : ReteNeurale α :=
  let dimensioni := info_strati.map (·.neuroni)
  let funzioni : List (FunzioneAttivazione α) :=
    match info_strati with
    | [] => []
    | _ :: resto => .Nessuna :: resto.map (·.funzione_attivazione)
  ⟨(List.range (dimensioni.length - 1)).map
      (fun i => fromFn (dimensioni.getD (i + 1) 0) (dimensioni.getD i 0) (rnd i)),
    funzioni, tasso_apprendimento, dimensioni⟩

/-- `ReteNeurale::nuova_rete_uniforme`: same weight construction, activation
sequence of length one. -/
def nuova_rete_uniforme (dimensioni_strati : List ℕ) (tasso_apprendimento : α)
    (funzione_attivazione : FunzioneAttivazione α) (rnd : ℕ → ℕ → ℕ → α) : ReteNeurale α :=
  ⟨(List.range (dimensioni_strati.length - 1)).map
      (fun i =>
        fromFn (dimensioni_strati.getD (i + 1) 0) (dimensioni_strati.getD i 0) (rnd i)),
    [funzione_attivazione], tasso_apprendimento, dimensioni_strati⟩

/-! ## Forward pass (`propagazione_avanti`)

The worker `fwdAux` also records, for each stage, the activation-sequence
index the source reads (`self.funzioni_attivazione[i]`); the index lookup is
an `Option` because the Rust indexing panics out of bounds.  The index update
after each stage is the source's three-way `if`. -/

/-- One stage per weight matrix: `z = pesi * corrente`, apply the activation
selected by index `i`, then advance `i` by the source's rule.  Returns the
`(index used, stage vector)` pairs. -/
def fwdAux (p : Prim α) (funzioni : List (FunzioneAttivazione α)) :
    List (Matrice α) → List α → ℕ → Option (List (ℕ × List α))
  | [], _, _ => some []
  | pesi :: resto, corrente, i =>
    match funzioni.get? i with
    | none => none
    | some f =>
      let zeta := mulVec pesi corrente
      let corrente' := zeta.map (attiva p f)
      let i' :=
        if i < funzioni.length - 1 then i + 1
        else if 1 < funzioni.length then 1
        else 0
      (fwdAux p funzioni resto corrente' i').map (fun l => (i, corrente') :: l)

/-- `ReteNeurale::propagazione_avanti`: the input is recorded as stage 0 and
the index starts at 1. -/
def propagazione_avanti (p : Prim α) (r : ReteNeurale α) (input : List α) :
    Option (List (List α)) :=
  (fwdAux p r.funzioni_attivazione r.strati input 1).map
    (fun l => input :: l.map Prod.snd)

/-- The activation-sequence indices the forward pass reads, one per stage. -/
def propagazioneIndici (p : Prim α) (r : ReteNeurale α) (input : List α) :
    Option (List ℕ) :=
  (fwdAux p r.funzioni_attivazione r.strati input 1).map (List.map Prod.fst)

/-- `ReteNeurale::elabora`: forward propagation, returning the last stage. -/
def elabora (p : Prim α) (r : ReteNeurale α) (input : List α) : Option (List α) :=
  (propagazione_avanti p r input).map (fun uscite => uscite.getD (uscite.length - 1) [])

/-! ## Backpropagation (`_retropropagazione`) -/

/-- The initial output-stage delta: `errore = target - uscite.last`, then
`delta = errore ⊙ derivata` of `funzioni_attivazione[len - 1]` applied to the
last stage. -/
def deltaIniziale (p : Prim α) (r : ReteNeurale α) (uscite : List (List α))
    (target : List α) : Option (List α) :=
  match r.funzioni_attivazione.get? (r.funzioni_attivazione.length - 1) with
  | none => none
  | some f =>
    let errore := subV target (uscite.getD (uscite.length - 1) [])
    some (cmulV errore ((uscite.getD (uscite.length - 1) []).map (derivata p f)))

/-- The update of the backpropagation loop's activation index `j`, performed
at the top of every iteration: with a single activation the index is 0;
otherwise walk down, skipping position 0, and wrap from 1 back to the last
position. -/
def stepMirrored (F j : ℕ) : ℕ :=
  if F = 1 then 0 else if 1 < j then j - 1 else F - 1

/-- The body of the source's `for (i, pesi) in strati.iter_mut().enumerate().rev()`
loop, processing the `(index, matrix)` pairs in the order given.  Each step
first advances the activation index `j` by `stepMirrored`, then applies
the weight update, and, when `i > 0`, propagates the error through the
just-updated weights and forms the next delta.  Alongside the updated
matrices (in processing order) it records the vector each `derivata` call is
mapped over. -/
def retroLoop (p : Prim α) (funzioni : List (FunzioneAttivazione α)) (tasso : α)
    (uscite : List (List α)) :
    List (ℕ × Matrice α) → ℕ → List α → Option (List (Matrice α) × List (List α))
  | [], _, _ => some ([], [])
  | (i, pesi) :: resto, j, delta =>
    let j' := stepMirrored funzioni.length j
    let uscita_precedente := uscite.getD i []
    let pesi' := addM pesi (smulM tasso (outer delta uscita_precedente))
    if 0 < i then
      match funzioni.get? j' with
      | none => none
      | some f =>
        let errore := mulVec (transposeM pesi') delta
        let delta' := cmulV errore ((uscite.getD i []).map (derivata p f))
        (retroLoop p funzioni tasso uscite resto j' delta').map
          (fun res => (pesi' :: res.1, uscite.getD i [] :: res.2))
    else
      (retroLoop p funzioni tasso uscite resto j' delta).map
        (fun res => (pesi' :: res.1, res.2))

/-- `ReteNeurale::_retropropagazione`: the updated weight matrices, restored
to front-to-back order. -/
def _retropropagazione (p : Prim α) (r : ReteNeurale α) (uscite : List (List α))
    (target : List α) : Option (List (Matrice α)) :=
  match deltaIniziale p r uscite target with
  | none => none
  | some delta =>
    (retroLoop p r.funzioni_attivazione r.tasso_apprendimento uscite
        r.strati.enum.reverse (r.funzioni_attivazione.length - 1) delta).map
      (fun res => res.1.reverse)

/-- The vectors each `derivata` call of a backpropagation run is mapped over,
in call order: the argument of the initial output-stage delta followed by the
per-layer arguments recorded by `retroLoop`. -/
def derivataArgomenti (p : Prim α) (r : ReteNeurale α) (uscite : List (List α))
    (target : List α) : Option (List (List α)) :=
  match deltaIniziale p r uscite target with
  | none => none
  | some delta =>
    (retroLoop p r.funzioni_attivazione r.tasso_apprendimento uscite
        r.strati.enum.reverse (r.funzioni_attivazione.length - 1) delta).map
      (fun res => uscite.getD (uscite.length - 1) [] :: res.2)

/-- `ReteNeurale::addestra`: forward pass then backpropagation; only the
`strati` field is replaced. -/
def addestra (p : Prim α) (r : ReteNeurale α) (input target : List α) :
    Option (ReteNeurale α) :=
  match propagazione_avanti p r input with
  | none => none
  | some uscite =>
    (_retropropagazione p r uscite target).map (fun s => { r with strati := s })

/-! ## Specification-side description of backpropagation (§4.3)

These definitions follow the specification's words, for comparison with the
embedded `_retropropagazione`: the activation index for the delta at stage
`i` is obtained by walking the mirrored cyclic rule backward `L - i` steps
from the last position, and the per-layer formulas are exactly §4.3's
`weights[i] += lr * (delta ⊗ stage[i])`, `error = transpose(weights[i]') · delta`,
`delta = error ⊙ derivative_of(stage[i])` with the just-updated weights. -/

/-- The mirrored cyclic index in effect for the delta at stage `i`, for a
network with `F` activations and `L` weight matrices: `L - i` backward steps
from the last position `F - 1`. -/
def mirroredIdx (F L i : ℕ) : ℕ := (stepMirrored F)^[L - i] (F - 1)

/-- The specification's delta sequence: `specDeltas … 0` is the output-stage
delta and `specDeltas … (k+1)` is the delta formed after the `k`-th processed
layer (layer `L-1-k`), using that layer's just-updated weights. -/
def specDeltas (p : Prim α) (funzioni : List (FunzioneAttivazione α)) (tasso : α)
    (pesi : List (Matrice α)) (uscite : List (List α)) (target : List α) :
    ℕ → List α
  | 0 =>
    cmulV (subV target (uscite.getD (uscite.length - 1) []))
      ((uscite.getD (uscite.length - 1) []).map
        (derivata p (funzioni.getD (funzioni.length - 1) .Nessuna)))
  | k + 1 =>
    let i := pesi.length - 1 - k
    let aggiornato :=
      addM (pesi.getD i ⟨0, 0, []⟩)
        (smulM tasso
          (outer (specDeltas p funzioni tasso pesi uscite target k) (uscite.getD i [])))
    cmulV (mulVec (transposeM aggiornato) (specDeltas p funzioni tasso pesi uscite target k))
      ((uscite.getD i []).map
        (derivata p
          (funzioni.getD (mirroredIdx funzioni.length pesi.length i) .Nessuna)))

/-- The specification's updated weight matrix for the `k`-th processed layer
(layer `L-1-k`): `weights[i] + tasso * (delta ⊗ stage[i])`. -/
def specW (p : Prim α) (funzioni : List (FunzioneAttivazione α)) (tasso : α)
    (pesi : List (Matrice α)) (uscite : List (List α)) (target : List α) (k : ℕ) :
    Matrice α :=
  addM (pesi.getD (pesi.length - 1 - k) ⟨0, 0, []⟩)
    (smulM tasso
      (outer (specDeltas p funzioni tasso pesi uscite target k)
        (uscite.getD (pesi.length - 1 - k) [])))

/-! ## Persistence codec (`salva_pesi_txt` / `carica_pesi_txt`)

Files are modelled as lists of lines, each a `List Char`.  The fixed tag
literals are `"[#] "`, `"[+] "`, `"[*] "` and the layer separator `"---"`. -/

/-- Decode one cleaned activation code (the body of the loader's
`if … starts_with("LeakyReLU_") … else match` expression); the `alpha` parse
`unwrap` is modelled by the `Option`. -/
def parseFunzione (ofDec : ℤ → ℕ → α) (nome : List Char) :
    Option (FunzioneAttivazione α) :=
  if "LeakyReLU_".data.isPrefixOf nome then
    match (chSplitOn nome "_".data).get? 1 with
    | none => none
    | some s => (parseDec s).map (fun v => .LeakyReLU (ofDec v.1 v.2))
  else if nome = "Sigmoide".data then some .Sigmoide
  else if nome = "ReLU".data then some .ReLU
  else if nome = "Tanh".data then some .Tanh
  else if nome = "Softplus".data then some .Softplus
  else if nome = "Swish".data then some .Swish
  else if nome = "Lineare".data then some .Lineare
  else some .Nessuna

/-- The loader's topology-line loop pairing each declared size with
`self.funzioni_attivazione[i]`, advancing `i` by
`if i < funzioni.length then i + 1 else 0`; the indexing is an `Option`
because the Rust access panics when `i` is out of bounds. -/
def infoStratiLoop (funzioni : List (FunzioneAttivazione α)) :
    List ℕ → ℕ → Option (List (Strato α))
  | [], _ => some []
  | neuroni :: resto, i =>
    match funzioni.get? i with
    | none => none
    | some f =>
      (infoStratiLoop funzioni resto (if i < funzioni.length then i + 1 else 0)).map
        (fun l => ⟨neuroni, f⟩ :: l)

/-- One row of `ReteNeurale::trasponi`: push each element of `riga` onto the
corresponding column; `none` models the panic when the row is longer than the
first row's column list. -/
def trasponiRiga : List (List α) → List α → Option (List (List α))
  | colonne, [] => some colonne
  | [], _ :: _ => none
  | colonna :: colonne, x :: resto =>
    (trasponiRiga colonne resto).map (fun cs => (colonna ++ [x]) :: cs)

/-- `ReteNeurale::trasponi`: column lists start empty, sized by the first
row. -/
def trasponi (matrice : List (List α)) : Option (List (List α)) :=
  match matrice with
  | [] => some []
  | riga0 :: _ => matrice.foldlM trasponiRiga (List.replicate riga0.length [])

/-- `DMatrix::from_vec r c dati` (column-major data); `none` models the
shape assertion when `dati.length ≠ r * c`. -/
def fromVec (r c : ℕ) (dati : List α) : Option (Matrice α) :=
  if dati.length = r * c then
    some ⟨r, c,
      (List.range r).map (fun i => (List.range c).map (fun j => dati.getD (j * r + i) 0))⟩
  else none

/-- The loader's accumulated mutable state: the three header fields plus the
finished layer matrices and the rows of the block being read. -/
structure StatoCarica (α : Type) where
  tasso : α
  funzioni : List (FunzioneAttivazione α)
  dimensioni : List ℕ
  strati : List (Matrice α)
  attuale : List (List α)
deriving DecidableEq

/-- Process one line of the weight file, dispatching on the tag checks in the
source's order.  Every `unwrap`/panic of the source is an `Option` failure. -/
def processaLinea (ofDec : ℤ → ℕ → α) (st : StatoCarica α) (linea : List Char) :
    Option (StatoCarica α) :=
  if "[+] ".data.isPrefixOf linea then
    match (chSplitOn (chReplace linea "[+] ".data []) [' ']).get? 1 with
    | none => none
    | some gettone =>
      match parseDec gettone with
      | none => none
      | some v =>
        some (if 0 < ofDec v.1 v.2 then { st with tasso := ofDec v.1 v.2 } else st)
  else if "[*] ".data.isPrefixOf linea then
    let nomi := chTrim (chReplace linea "[*] ".data [])
    ((chSplitOn nomi "; ".data).foldlM
        (fun fs pezzo =>
          let nome := chReplace (chReplace pezzo ";".data []) " ".data []
          if chTrim nome ≠ [] then
            (parseFunzione ofDec nome).map (fun f => fs ++ [f])
          else some fs)
        st.funzioni).map
      (fun fs => { st with funzioni := fs })
  else if "[#] ".data.isPrefixOf linea then
    match (chSplitOn (chTrim (chReplace linea "[#] ".data [])) ", ".data).mapM parseNat with
    | none => none
    | some dims =>
      if 0 < dims.length then
        match infoStratiLoop st.funzioni dims 0 with
        | none => none
        | some _ => some { st with dimensioni := dims }
      else some st
  else if chTrim linea = "---".data then
    match st.attuale.get? 0 with
    | none => none
    | some riga0 =>
      match trasponi st.attuale with
      | none => none
      | some trasposta =>
        match fromVec st.attuale.length riga0.length trasposta.flatten with
        | none => none
        | some m => some { st with strati := st.strati ++ [m], attuale := [] }
  else
    match (chSplitWs [] linea).mapM parseDec with
    | none => none
    | some valori =>
      some { st with attuale := st.attuale ++ [valori.map (fun v => ofDec v.1 v.2)] }

/-- `ReteNeurale::carica_pesi_txt`: the activation list is cleared up front,
the lines are processed in order, and on success the accumulated layer
matrices replace `strati`.  (The `Strato` list built while handling the
topology line is passed to `ReteNeurale::nuova` whose result the source
discards, so only its possible panic is observable.) -/
def carica_pesi_txt (ofDec : ℤ → ℕ → α) (r : ReteNeurale α) (linee : List (List Char)) :
    Option (ReteNeurale α) :=
  (linee.foldlM (processaLinea ofDec)
      ⟨r.tasso_apprendimento, [], r.dimensioni_strati, [], []⟩).map
    (fun st => ⟨st.strati, st.funzioni, st.tasso, st.dimensioni⟩)

/-- The serializer's code for one activation: the bare `sigla`, except that
`LeakyReLU` appends `_` and its `alfa`. -/
def codiceAttivazione (pr : α → List Char) (f : FunzioneAttivazione α) : List Char :=
  if sigla f ≠ "LeakyReLU".data then sigla f ++ "; ".data
  else sigla f ++ "_".data ++ pr (alfa f) ++ "; ".data

/-- `ReteNeurale::salva_pesi_txt`: the three header lines (each
`writeln!("{} {}", tag, …)`, so the tag's trailing space is followed by the
format string's own space), then one line per matrix row and a `---` line per
layer.  The topology line is `format!("{:?}", dimensioni)` with the brackets
replaced away. -/
def salva_pesi_txt (pr : α → List Char) (r : ReteNeurale α) : List (List Char) :=
  ("[+] ".data ++ " ".data ++ pr r.tasso_apprendimento)
    :: ("[*] ".data ++ " ".data
        ++ (r.funzioni_attivazione.map (codiceAttivazione pr)).flatten)
    :: ("[#] ".data ++ " ".data
        ++ chReplace
            (chReplace
              ("[".data
                ++ (List.intercalate ", ".data (r.dimensioni_strati.map natChars))
                ++ "]".data)
              "[".data [])
            "]".data [])
    :: (r.strati.map
          (fun strato =>
            strato.righe.map (fun riga => List.intercalate " ".data (riga.map pr))
              ++ ["---".data])).flatten

/-- The §3 shape invariant as a boolean check: one weight matrix per adjacent
pair of declared sizes, with `nrows = dimensioni[i+1]` and
`ncols = dimensioni[i]`. -/
def formaCoerente (r : ReteNeurale α) : Bool :=
  r.strati.length = r.dimensioni_strati.length - 1 &&
    (List.range (r.dimensioni_strati.length - 1)).all
      (fun i =>
        match r.strati.get? i with
        | some m =>
          m.nrows = r.dimensioni_strati.getD (i + 1) 0 &&
            m.ncols = r.dimensioni_strati.getD i 0
        | none => false)

/-! ## Concrete instantiations for evaluation (scalar `ℤ`) -/

/-- Trivial interpretation of the transcendental primitives (their values are
irrelevant to every claim evaluated concretely). -/
def pZero : Prim ℤ := ⟨fun _ => 0, fun _ => 0, fun _ => 0, fun _ => 0⟩

/-- Decimal-to-`ℤ` conversion for files whose tokens are integers. -/
def ofDecZ : ℤ → ℕ → ℤ := fun m _ => m

/-- A fixed random generator. -/
def rndZero : ℕ → ℕ → ℕ → ℤ := fun _ _ _ => 0

/-- The placeholder network the source's `carica` starts from
(`nuova_rete_uniforme(vec![0], 0.0, Sigmoide)`). -/
def reteVuota : ReteNeurale ℤ := nuova_rete_uniforme [0] 0 .Sigmoide rndZero

/-! ## Auxiliary lemmas -/

theorem isPrefixOf_append_self (p l : List Char) : p.isPrefixOf (p ++ l) = true := by
  induction p with
  | nil => simp [List.isPrefixOf]
  | cons c p _ => simp [List.isPrefixOf]

theorem get?_eq_some_getD {β : Type} {l : List β} {i : ℕ} (h : i < l.length) (d : β) :
    l.get? i = some (l.getD i d) := by
  rw [List.getD_eq_getElem?_getD, List.get?_eq_getElem?, List.getElem?_eq_getElem h]
  simp

theorem map_getD_range {β : Type} (s : List β) (x : β) :
    (List.range s.length).map (fun t => s.getD t x) = s := by
  induction s with
  | nil => rfl
  | cons a s ih =>
    simp only [List.length_cons, List.range_succ_eq_map, List.map_cons, List.getD_cons_zero,
      List.map_map]
    exact congrArg _ ih

theorem reverse_range_succ (n : ℕ) :
    (List.range (n + 1)).reverse = n :: (List.range n).reverse := by
  simp [List.range_succ]

theorem enum_reverse_eq {β : Type} (ws : List β) (d : β) :
    ws.enum.reverse = (List.range ws.length).reverse.map (fun t => (t, ws.getD t d)) := by
  rw [List.map_reverse]
  congr 1
  apply List.ext_get?
  intro i
  rw [List.get?_enum]
  rcases lt_or_le i ws.length with h | h
  · rw [List.get?_map, List.get?_range h, get?_eq_some_getD h d]
    simp
  · rw [List.get?_map, List.get?_eq_none.mpr (by simpa using h),
      List.get?_eq_none.mpr (by simpa using h)]
    simp

theorem stepMirrored_lt {F j : ℕ} (hF : 1 ≤ F) (hj : j < F) : stepMirrored F j < F := by
  unfold stepMirrored
  split
  · omega
  · split <;> omega

theorem mirroredIdx_lt {F : ℕ} (L i : ℕ) (hF : 1 ≤ F) : mirroredIdx F L i < F := by
  unfold mirroredIdx
  generalize L - i = n
  induction n with
  | zero => exact Nat.sub_lt hF Nat.one_pos
  | succ n ih =>
    rw [Function.iterate_succ_apply']
    exact stepMirrored_lt hF ih

theorem mirroredIdx_self (F L : ℕ) : mirroredIdx F L L = F - 1 := by
  unfold mirroredIdx
  rw [Nat.sub_self]
  rfl

theorem stepMirrored_mirroredIdx {F L i : ℕ} (h : i < L) :
    stepMirrored F (mirroredIdx F L (i + 1)) = mirroredIdx F L i := by
  unfold mirroredIdx
  have : L - i = (L - (i + 1)) + 1 := by omega
  rw [this, Function.iterate_succ_apply']

theorem fwdAux_spec (p : Prim α) (funzioni : List (FunzioneAttivazione α))
    (hF : 2 ≤ funzioni.length) :
    ∀ (ws : List (Matrice α)) (corrente : List α) (i : ℕ), 1 ≤ i →
      i ≤ funzioni.length - 1 →
      ∃ l, fwdAux p funzioni ws corrente i = some l ∧
        l.map Prod.fst =
          (List.range ws.length).map
            (fun k => (i - 1 + k) % (funzioni.length - 1) + 1) ∧
        l.length = ws.length ∧
        ∀ q ∈ l, ∃ z f, q.2 = List.map (attiva p f) z := by
  intro ws
  induction ws with
  | nil =>
    intro corrente i _ _
    exact ⟨[], rfl, by simp, rfl, by simp⟩
  | cons w ws ih =>
    intro corrente i hi1 hi2
    have hiF : i < funzioni.length := by omega
    have hget := get?_eq_some_getD hiF FunzioneAttivazione.Nessuna
    have hstep : (1 ≤ (if i < funzioni.length - 1 then i + 1
          else if 1 < funzioni.length then 1 else 0)) ∧
        (if i < funzioni.length - 1 then i + 1
          else if 1 < funzioni.length then 1 else 0) ≤ funzioni.length - 1 := by
      split <;> [omega; (split <;> omega)]
    obtain ⟨l, hl, hfst, hlen, hpost⟩ :=
      ih ((mulVec w corrente).map
            (attiva p (funzioni.getD i FunzioneAttivazione.Nessuna)))
        _ hstep.1 hstep.2
    refine ⟨(i, (mulVec w corrente).map
        (attiva p (funzioni.getD i FunzioneAttivazione.Nessuna))) :: l, ?_, ?_, ?_, ?_⟩
    · simp only [fwdAux, hget, hl, Option.map_some']
    · simp only [List.map_cons, List.length_cons, List.range_succ_eq_map, hfst,
        List.map_map]
      congr 1
      · have hlt : i - 1 < funzioni.length - 1 := by omega
        have h0 : i - 1 + 0 = i - 1 := rfl
        rw [h0, Nat.mod_eq_of_lt hlt]
        omega
      · apply List.map_congr_left
        intro k _
        simp only [Function.comp]
        rcases Nat.lt_or_ge i (funzioni.length - 1) with h | h
        · simp only [if_pos h]
          congr 2
          omega
        · have hie : i = funzioni.length - 1 := by omega
          simp only [if_neg (by omega : ¬ i < funzioni.length - 1),
            if_pos (by omega : 1 < funzioni.length)]
          have h1 : (1 : ℕ) - 1 + k = k := by omega
          have h2 : i - 1 + (k + 1) = (funzioni.length - 1) + k := by omega
          rw [h1, h2, Nat.add_comm (funzioni.length - 1) k, Nat.add_mod_right]
    · simp [hlen]
    · intro q hq
      rcases List.mem_cons.mp hq with h | h
      · exact ⟨mulVec w corrente, funzioni.getD i FunzioneAttivazione.Nessuna,
          by rw [h]⟩
      · exact hpost q h

theorem retroLoop_spec (p : Prim α) (funzioni : List (FunzioneAttivazione α)) (tasso : α)
    (ws : List (Matrice α)) (uscite : List (List α)) (target : List α)
    (hF : 1 ≤ funzioni.length) :
    ∀ i, i < ws.length →
      retroLoop p funzioni tasso uscite
          ((List.range (i + 1)).reverse.map (fun t => (t, ws.getD t ⟨0, 0, []⟩)))
          (mirroredIdx funzioni.length ws.length (i + 1))
          (specDeltas p funzioni tasso ws uscite target (ws.length - 1 - i)) =
        some
          ((List.range (i + 1)).reverse.map
              (fun t => specW p funzioni tasso ws uscite target (ws.length - 1 - t)),
            (List.range i).reverse.map (fun t => uscite.getD (t + 1) [])) := by
  intro i
  induction i with
  | zero =>
    intro h0
    have hsub : ws.length - 1 - (ws.length - 1 - 0) = 0 := by omega
    simp only [List.range_succ, List.range_zero, List.nil_append, List.reverse_cons,
      List.reverse_nil, List.map_cons, List.map_nil, retroLoop, lt_irrefl, if_false,
      Option.map_some', specW, hsub]
  | succ i ih =>
    intro h1
    have hiL : i < ws.length := by omega
    have hkk : ws.length - 1 - (i + 1) = ws.length - 2 - i := by omega
    have hk1 : ws.length - 1 - i = ws.length - 2 - i + 1 := by omega
    have hidx : ws.length - 1 - (ws.length - 2 - i) = i + 1 := by omega
    rw [reverse_range_succ]
    simp only [List.map_cons]
    rw [hkk]
    simp only [retroLoop, Nat.succ_pos, if_true,
      stepMirrored_mirroredIdx h1,
      get?_eq_some_getD (mirroredIdx_lt ws.length (i + 1) hF) FunzioneAttivazione.Nessuna]
    have hDD :
        cmulV
            (mulVec
              (transposeM
                (addM (ws.getD (i + 1) ⟨0, 0, []⟩)
                  (smulM tasso
                    (outer (specDeltas p funzioni tasso ws uscite target (ws.length - 2 - i))
                      (uscite.getD (i + 1) [])))))
              (specDeltas p funzioni tasso ws uscite target (ws.length - 2 - i)))
            ((uscite.getD (i + 1) []).map
              (derivata p
                (funzioni.getD (mirroredIdx funzioni.length ws.length (i + 1))
                  FunzioneAttivazione.Nessuna))) =
          specDeltas p funzioni tasso ws uscite target (ws.length - 1 - i) := by
      rw [hk1]
      conv_rhs => rw [specDeltas]
      simp only [hidx]
    have hWW :
        addM (ws.getD (i + 1) ⟨0, 0, []⟩)
            (smulM tasso
              (outer (specDeltas p funzioni tasso ws uscite target (ws.length - 2 - i))
                (uscite.getD (i + 1) []))) =
          specW p funzioni tasso ws uscite target (ws.length - 2 - i) := by
      rw [specW, hidx]
    rw [hDD, hWW, ih hiL]
    simp only [Option.map_some']
    simp only [reverse_range_succ, List.map_cons, hkk]

theorem deltaIniziale_eq_specDeltas (p : Prim α) (r : ReteNeurale α)
    (uscite : List (List α)) (target : List α) (hF : 1 ≤ r.funzioni_attivazione.length) :
    deltaIniziale p r uscite target =
      some (specDeltas p r.funzioni_attivazione r.tasso_apprendimento r.strati uscite
        target 0) := by
  unfold deltaIniziale
  rw [get?_eq_some_getD (by omega : r.funzioni_attivazione.length - 1 <
    r.funzioni_attivazione.length) FunzioneAttivazione.Nessuna]
  rfl

theorem due_funzioni_of_fwd (p : Prim α) (r : ReteNeurale α) (input : List α)
    (uscite : List (List α)) (h : propagazione_avanti p r input = some uscite)
    (hL : 1 ≤ r.strati.length) : 2 ≤ r.funzioni_attivazione.length := by
  unfold propagazione_avanti at h
  cases hws : r.strati with
  | nil => rw [hws] at hL; simp at hL
  | cons w ws =>
    rw [hws] at h
    by_contra hcon
    have hnone : r.funzioni_attivazione[1]? = none :=
      List.getElem?_eq_none (by omega)
    simp [fwdAux, hnone] at h

omit [LinearOrderedCommRing α] in
theorem coda_reverse (s : List (List α)) (x : List α) (hs : 1 ≤ s.length) :
    (x :: s).getD ((x :: s).length - 1) [] ::
      (List.range (s.length - 1)).reverse.map (fun t => (x :: s).getD (t + 1) []) =
      s.reverse := by
  obtain ⟨n, hn⟩ : ∃ n, s.length = n + 1 := ⟨s.length - 1, by omega⟩
  simp only [List.length_cons, Nat.add_sub_cancel, List.getD_cons_succ, hn]
  have hcons :
      s.getD n [] :: (List.range n).reverse.map (fun t => s.getD t []) =
        ((List.range (n + 1)).reverse).map (fun t => s.getD t []) := by
    rw [reverse_range_succ, List.map_cons]
  rw [hcons, List.map_reverse, ← hn, map_getD_range]

omit [LinearOrderedCommRing α] in
theorem infoStratiLoop_oob (funzioni : List (FunzioneAttivazione α)) :
    ∀ (dims : List ℕ) (i : ℕ), i ≤ funzioni.length →
      funzioni.length - i < dims.length → infoStratiLoop funzioni dims i = none := by
  intro dims
  induction dims with
  | nil => intro i _ h; simp at h
  | cons n resto ih =>
    intro i hi hlt
    rcases Nat.eq_or_lt_of_le hi with he | hlt'
    · have hnone : funzioni.get? i = none := List.get?_eq_none.mpr (by omega)
      simp only [infoStratiLoop, hnone]
    · have hget := get?_eq_some_getD hlt' (FunzioneAttivazione.Nessuna (α := α))
      have hrec := ih (i + 1) (by omega) (by simp at hlt; omega)
      simp only [infoStratiLoop, hget]
      rw [if_pos (by omega : i < funzioni.length), hrec]
      rfl

theorem processa_tasso_frame (ofDec : ℤ → ℕ → α) (st st' : StatoCarica α) (l : List Char)
    (hpre : "[+] ".data.isPrefixOf l = true) (h : processaLinea ofDec st l = some st') :
    st'.funzioni = st.funzioni ∧ st'.dimensioni = st.dimensioni ∧
      st'.strati = st.strati ∧ st'.attuale = st.attuale := by
  unfold processaLinea at h
  rw [if_pos hpre] at h
  split at h
  · exact absurd h (by simp)
  · split at h
    · exact absurd h (by simp)
    · have h2 := Option.some.inj h
      split at h2 <;> subst h2 <;> exact ⟨rfl, rfl, rfl, rfl⟩

theorem processa_codice_sigmoide (ofDec : ℤ → ℕ → ℤ) (st : StatoCarica ℤ) :
    processaLinea ofDec st "[*]  Sigmoide; ".data =
      some { st with funzioni := st.funzioni ++ [.Sigmoide] } := rfl

theorem processa_topologia_oob_uniforme (ofDec : ℤ → ℕ → ℤ) (t : ℤ)
    (fz : List (FunzioneAttivazione ℤ)) (dm : List ℕ) (sr : List (Matrice ℤ))
    (att : List (List ℤ)) (hfz : fz = [.Sigmoide]) :
    processaLinea ofDec ⟨t, fz, dm, sr, att⟩ "[#]  1, 1".data = none := by
  subst hfz
  rfl

/-! ## Claims -/

/-- C2: the claim states that a network whose activation sequence has exactly
one entry (as built by `nuova_rete_uniforme`) applies that single activation
(index 0) at every stage and behaves like the corresponding per-layer
network.  In the code the forward pass starts its activation index at 1, so
for any uniform network with at least one weight layer the very first stage
reads `funzioni_attivazione[1]` of a one-element list: the indexing panics
(modelled by `none`) and neither `elabora` nor `addestra` can complete. -/
theorem c2_rete_uniforme_panico (p : Prim α) (tasso : α) (f : FunzioneAttivazione α)
    (rnd : ℕ → ℕ → ℕ → α) (input target : List α) :
    elabora p (nuova_rete_uniforme [1, 1] tasso f rnd) input = none ∧
      addestra p (nuova_rete_uniforme [1, 1] tasso f rnd) input target = none :=
  ⟨rfl, rfl⟩

/-- C5: backpropagation processes the weight matrices from last to first and,
for each index `i`, performs exactly `weights[i] += tasso * (delta ⊗ stage[i])`,
then, only when `i > 0`, `errore = transpose(weights[i]') · delta` with the
just-updated weights and `delta = errore ⊙ derivata(stage[i])` with the
activation selected by the mirrored cyclic index rule: the embedded
`_retropropagazione` coincides with the specification-side closed form
`specW` (whose deltas `specDeltas` are built from `mirroredIdx`). -/
theorem c5_retropropagazione_formule (p : Prim α) (r : ReteNeurale α)
    (uscite : List (List α)) (target : List α)
    (hF : 1 ≤ r.funzioni_attivazione.length) :
    _retropropagazione p r uscite target =
      some ((List.range r.strati.length).map
        (fun t =>
          specW p r.funzioni_attivazione r.tasso_apprendimento r.strati uscite target
            (r.strati.length - 1 - t))) := by
  simp only [_retropropagazione, deltaIniziale_eq_specDeltas p r uscite target hF]
  rw [enum_reverse_eq r.strati ⟨0, 0, []⟩]
  rcases Nat.eq_zero_or_pos r.strati.length with hL | hL
  · have hnil : r.strati = [] := List.length_eq_zero.mp hL
    rw [hnil]
    simp [retroLoop]
  · have hstep := retroLoop_spec p r.funzioni_attivazione r.tasso_apprendimento r.strati
      uscite target hF (r.strati.length - 1) (by omega)
    rw [(by omega : r.strati.length - 1 + 1 = r.strati.length), mirroredIdx_self,
      (by omega : r.strati.length - 1 - (r.strati.length - 1) = 0)] at hstep
    rw [hstep]
    simp only [Option.map_some']
    rw [List.map_reverse, List.reverse_reverse]

/-- Witness for C5 at a concrete network. -/
theorem c5_retropropagazione_formule_witness :
    1 ≤ (3 : ℕ) ∧
      _retropropagazione pZero
          (⟨[⟨1, 1, [[1]]⟩, ⟨1, 1, [[1]]⟩], [.Nessuna, .Lineare, .Lineare], 1, [1, 1, 1]⟩ :
            ReteNeurale ℤ)
          [[1], [1], [1]] [0] =
        some ((List.range 2).map
          (fun t =>
            specW pZero [.Nessuna, .Lineare, .Lineare] 1 [⟨1, 1, [[1]]⟩, ⟨1, 1, [[1]]⟩]
              [[1], [1], [1]] [0] (2 - 1 - t))) :=
  ⟨by decide,
    c5_retropropagazione_formule pZero
      ⟨[⟨1, 1, [[1]]⟩, ⟨1, 1, [[1]]⟩], [.Nessuna, .Lineare, .Lineare], 1, [1, 1, 1]⟩
      [[1], [1], [1]] [0] (by decide)⟩

/-- C6: with more than one activation entry, the forward pass uses index 1 at
stage 1 and then the cyclic rule `k % (F-1) + 1`: it advances by one, wraps
from the last valid index back to 1 (never to 0), reuses the entries from
index 1 on cyclically when the list is shorter than the number of weighted
layers, and every used index stays in `[1, F-1]` (so index 0 is never read
and trailing entries beyond the reached range are never read). -/
theorem c6_indici_avanti_ciclici (p : Prim α) (r : ReteNeurale α) (input : List α)
    (hF : 2 ≤ r.funzioni_attivazione.length) :
    propagazioneIndici p r input =
      some ((List.range r.strati.length).map
        (fun k => k % (r.funzioni_attivazione.length - 1) + 1)) ∧
      ∀ idx ∈ (List.range r.strati.length).map
          (fun k => k % (r.funzioni_attivazione.length - 1) + 1),
        1 ≤ idx ∧ idx ≤ r.funzioni_attivazione.length - 1 := by
  obtain ⟨l, hl, hfst, hlen, hpost⟩ :=
    fwdAux_spec p r.funzioni_attivazione hF r.strati input 1 le_rfl (by omega)
  constructor
  · unfold propagazioneIndici
    rw [hl]
    simp only [Option.map_some', hfst]
    congr 1
    apply List.map_congr_left
    intro k _
    have hk : 1 - 1 + k = k := by omega
    rw [hk]
  · intro idx hidx
    obtain ⟨k, hk, hke⟩ := List.mem_map.mp hidx
    have hd : 0 < r.funzioni_attivazione.length - 1 := by omega
    have := Nat.mod_lt k hd
    omega

/-- Witness for C6 at a concrete network with three activations and four
weighted layers. -/
theorem c6_indici_avanti_ciclici_witness :
    propagazioneIndici pZero
        (⟨[⟨1, 1, [[1]]⟩, ⟨1, 1, [[1]]⟩, ⟨1, 1, [[1]]⟩, ⟨1, 1, [[1]]⟩],
          [.Nessuna, .Lineare, .Lineare], 1, [1, 1, 1, 1, 1]⟩ : ReteNeurale ℤ) [1] =
      some ((List.range 4).map (fun k => k % 2 + 1)) ∧
      ∀ idx ∈ (List.range 4).map (fun k => k % 2 + 1), 1 ≤ idx ∧ idx ≤ 2 :=
  c6_indici_avanti_ciclici pZero
    ⟨[⟨1, 1, [[1]]⟩, ⟨1, 1, [[1]]⟩, ⟨1, 1, [[1]]⟩, ⟨1, 1, [[1]]⟩],
      [.Nessuna, .Lineare, .Lineare], 1, [1, 1, 1, 1, 1]⟩ [1] (by decide)

/-- C9: one completed call of `addestra` replaces only the weight matrices:
the activation sequence, the learning rate and the declared layer sizes of
the resulting network are those of the input network (and the Rust method
returns no value, its only effect being this weight mutation). -/
theorem c9_addestra_solo_pesi (p : Prim α) (r r' : ReteNeurale α) (input target : List α)
    (h : addestra p r input target = some r') :
    r'.funzioni_attivazione = r.funzioni_attivazione ∧
      r'.tasso_apprendimento = r.tasso_apprendimento ∧
      r'.dimensioni_strati = r.dimensioni_strati := by
  unfold addestra at h
  split at h
  · exact absurd h (by simp)
  · obtain ⟨s, _, hr⟩ := Option.map_eq_some'.mp h
    rw [← hr]
    exact ⟨rfl, rfl, rfl⟩

/-- Witness for C9 at a concrete network and training pair. -/
theorem c9_addestra_solo_pesi_witness :
    (⟨[⟨1, 1, [[0]]⟩], [.Nessuna, .Lineare], 1, [1, 1]⟩ :
          ReteNeurale ℤ).funzioni_attivazione =
        (⟨[⟨1, 1, [[1]]⟩], [.Nessuna, .Lineare], 1, [1, 1]⟩ :
          ReteNeurale ℤ).funzioni_attivazione ∧
      (⟨[⟨1, 1, [[0]]⟩], [.Nessuna, .Lineare], 1, [1, 1]⟩ :
          ReteNeurale ℤ).tasso_apprendimento =
        (⟨[⟨1, 1, [[1]]⟩], [.Nessuna, .Lineare], 1, [1, 1]⟩ :
          ReteNeurale ℤ).tasso_apprendimento ∧
      (⟨[⟨1, 1, [[0]]⟩], [.Nessuna, .Lineare], 1, [1, 1]⟩ :
          ReteNeurale ℤ).dimensioni_strati =
        (⟨[⟨1, 1, [[1]]⟩], [.Nessuna, .Lineare], 1, [1, 1]⟩ :
          ReteNeurale ℤ).dimensioni_strati :=
  c9_addestra_solo_pesi pZero ⟨[⟨1, 1, [[1]]⟩], [.Nessuna, .Lineare], 1, [1, 1]⟩
    ⟨[⟨1, 1, [[0]]⟩], [.Nessuna, .Lineare], 1, [1, 1]⟩ [1] [0] (by decide)

omit [LinearOrderedCommRing α] in
/-- C10: whenever the parsed activation list carries at least one code but
strictly fewer codes than the topology line has sizes, the loader's
topology-line loop increments its index up to the list's length and then
reads `funzioni_attivazione[len]`, out of bounds — the load panics
(modelled by `none`) instead of applying the codes cyclically. -/
theorem c10_codici_pochi_indice_fuori (funzioni : List (FunzioneAttivazione α))
    (dims : List ℕ) (h1 : 1 ≤ funzioni.length) (h2 : funzioni.length < dims.length) :
    infoStratiLoop funzioni dims 0 = none :=
  infoStratiLoop_oob funzioni dims 0 (by omega) (by omega)

/-- Witness for C10: one code, two sizes. -/
theorem c10_codici_pochi_indice_fuori_witness :
    infoStratiLoop (α := ℤ) [.Sigmoide] [1, 1] 0 = none :=
  c10_codici_pochi_indice_fuori [.Sigmoide] [1, 1] (by decide) (by decide)

/-- The C3 counterexample network: three weighted layers but a three-entry
activation list, so the cyclic forward walk (over positions 1..2) does not
end at the list's last position. -/
def reteC3 : ReteNeurale ℤ :=
  ⟨[⟨1, 1, [[1]]⟩, ⟨1, 1, [[1]]⟩, ⟨1, 1, [[1]]⟩],
    [.Nessuna, .LeakyReLU 2, .LeakyReLU 3], 1, [1, 1, 1, 1]⟩

/-- C3 counterexample: on `reteC3` the forward pass selects indices
`[1, 2, 1]`, so its last stage was activated with entry 1 (`LeakyReLU 2`),
whose derivative at the recorded stage `[-12]` would give the delta `[24]`;
the code instead computes the initial delta with entry 2 (`LeakyReLU 3`),
giving `[36]` — the initial delta is not formed with the activation the
forward pass last selected. -/
theorem c3_controesempio :
    propagazioneIndici pZero reteC3 [-1] = some [1, 2, 1] ∧
      propagazione_avanti pZero reteC3 [-1] = some [[-1], [-2], [-6], [-12]] ∧
      deltaIniziale pZero reteC3 [[-1], [-2], [-6], [-12]] [0] = some [36] ∧
      cmulV (subV [0] [-12])
          (List.map (derivata pZero (reteC3.funzioni_attivazione.getD 1 .Nessuna))
            [-12]) =
        [24] ∧
      ([36] : List ℤ) ≠ [24] := by decide

/-- C3 amended: the initial output-stage delta is always computed with the
derivative of the *last entry* of the activation list (index `F - 1`); this
coincides with the index the forward pass last selected exactly when the
number of weight matrices is a multiple of `F - 1` (in particular when the
list has one entry per stage), but not in general. -/
theorem c3_delta_iniziale_ultimo (p : Prim α) (r : ReteNeurale α)
    (uscite : List (List α)) (target : List α)
    (hF : 1 ≤ r.funzioni_attivazione.length) :
    deltaIniziale p r uscite target =
      some (cmulV (subV target (uscite.getD (uscite.length - 1) []))
        ((uscite.getD (uscite.length - 1) []).map
          (derivata p
            (r.funzioni_attivazione.getD (r.funzioni_attivazione.length - 1)
              FunzioneAttivazione.Nessuna)))) ∧
      (2 ≤ r.funzioni_attivazione.length → 1 ≤ r.strati.length →
        r.strati.length % (r.funzioni_attivazione.length - 1) = 0 →
        (r.strati.length - 1) % (r.funzioni_attivazione.length - 1) + 1 =
          r.funzioni_attivazione.length - 1) := by
  constructor
  · rw [deltaIniziale_eq_specDeltas p r uscite target hF]
    rfl
  · intro h2 hL hmod
    obtain ⟨k, hk⟩ := Nat.dvd_of_mod_eq_zero hmod
    rcases k with _ | k
    · rw [Nat.mul_zero] at hk
      omega
    · rw [Nat.mul_succ] at hk
      have hL1 : r.strati.length - 1 = (r.funzioni_attivazione.length - 1) * k +
          (r.funzioni_attivazione.length - 1 - 1) := by omega
      rw [hL1, Nat.mul_add_mod,
        Nat.mod_eq_of_lt (by omega : r.funzioni_attivazione.length - 1 - 1 <
          r.funzioni_attivazione.length - 1)]
      omega

/-- Witness for C3's amended claim at a network whose layer count (2) is a
multiple of `F - 1 = 2`. -/
theorem c3_delta_iniziale_ultimo_witness :
    (deltaIniziale pZero
        (⟨[⟨1, 1, [[1]]⟩, ⟨1, 1, [[1]]⟩], [.Nessuna, .Lineare, .Lineare], 1, [1, 1, 1]⟩ :
          ReteNeurale ℤ) [[1], [1], [1]] [0] =
      some (cmulV (subV [0] ([[1], [1], [1]].getD ([[1], [1], [1]].length - 1) []))
        (([[1], [1], [1]].getD ([[1], [1], [1]].length - 1) []).map
          (derivata pZero
            ((⟨[⟨1, 1, [[1]]⟩, ⟨1, 1, [[1]]⟩], [.Nessuna, .Lineare, .Lineare], 1,
                [1, 1, 1]⟩ : ReteNeurale ℤ).funzioni_attivazione.getD
              ((⟨[⟨1, 1, [[1]]⟩, ⟨1, 1, [[1]]⟩], [.Nessuna, .Lineare, .Lineare], 1,
                  [1, 1, 1]⟩ : ReteNeurale ℤ).funzioni_attivazione.length - 1)
              FunzioneAttivazione.Nessuna))))) ∧
      (2 ≤ (⟨[⟨1, 1, [[1]]⟩, ⟨1, 1, [[1]]⟩], [.Nessuna, .Lineare, .Lineare], 1,
            [1, 1, 1]⟩ : ReteNeurale ℤ).funzioni_attivazione.length →
        1 ≤ (⟨[⟨1, 1, [[1]]⟩, ⟨1, 1, [[1]]⟩], [.Nessuna, .Lineare, .Lineare], 1,
            [1, 1, 1]⟩ : ReteNeurale ℤ).strati.length →
        (⟨[⟨1, 1, [[1]]⟩, ⟨1, 1, [[1]]⟩], [.Nessuna, .Lineare, .Lineare], 1,
            [1, 1, 1]⟩ : ReteNeurale ℤ).strati.length %
            ((⟨[⟨1, 1, [[1]]⟩, ⟨1, 1, [[1]]⟩], [.Nessuna, .Lineare, .Lineare], 1,
                [1, 1, 1]⟩ : ReteNeurale ℤ).funzioni_attivazione.length - 1) = 0 →
        ((⟨[⟨1, 1, [[1]]⟩, ⟨1, 1, [[1]]⟩], [.Nessuna, .Lineare, .Lineare], 1,
              [1, 1, 1]⟩ : ReteNeurale ℤ).strati.length - 1) %
            ((⟨[⟨1, 1, [[1]]⟩, ⟨1, 1, [[1]]⟩], [.Nessuna, .Lineare, .Lineare], 1,
                [1, 1, 1]⟩ : ReteNeurale ℤ).funzioni_attivazione.length - 1) + 1 =
          (⟨[⟨1, 1, [[1]]⟩, ⟨1, 1, [[1]]⟩], [.Nessuna, .Lineare, .Lineare], 1,
              [1, 1, 1]⟩ : ReteNeurale ℤ).funzioni_attivazione.length - 1) :=
  c3_delta_iniziale_ultimo pZero
    ⟨[⟨1, 1, [[1]]⟩, ⟨1, 1, [[1]]⟩], [.Nessuna, .Lineare, .Lineare], 1, [1, 1, 1]⟩
    [[1], [1], [1]] [0] (by decide)

/-- C7 counterexample: a well-formed weight file whose only block is 2×2
while its topology line declares the sizes `1, 1` loads *successfully* — the
loader derives each matrix's shape from the block alone — and the resulting
network violates the shape invariant. -/
theorem c7_controesempio :
    carica_pesi_txt ofDecZ reteVuota
        ["[+]  2".data, "[*]  Null; Lineare; ".data, "[#]  1, 1".data,
          "1 2".data, "3 4".data, "---".data] =
      some ⟨[⟨2, 2, [[1, 2], [3, 4]]⟩], [.Nessuna, .Lineare], 2, [1, 1]⟩ ∧
      formaCoerente
        (⟨[⟨2, 2, [[1, 2], [3, 4]]⟩], [.Nessuna, .Lineare], 2, [1, 1]⟩ :
          ReteNeurale ℤ) = false := by decide

omit [LinearOrderedCommRing α] in
theorem formaCoerente_costruita (d : List ℕ) (fz : List (FunzioneAttivazione α)) (t : α)
    (rnd : ℕ → ℕ → ℕ → α) :
    formaCoerente (⟨(List.range (d.length - 1)).map
        (fun i => fromFn (d.getD (i + 1) 0) (d.getD i 0) (rnd i)), fz, t, d⟩ :
      ReteNeurale α) = true := by
  simp only [formaCoerente, Bool.and_eq_true]
  constructor
  · simp
  · rw [List.all_eq_true]
    intro i hi
    have hi' : i < d.length - 1 := List.mem_range.mp hi
    rw [List.get?_map, List.get?_range hi']
    simp [fromFn]

omit [LinearOrderedCommRing α] in
/-- C7 amended: every network built by `nuova` or `nuova_rete_uniforme`
satisfies the shape invariant (`weights[i]` is
`dimensioni[i+1] × dimensioni[i]`); deserialization, however, derives each
matrix's shape from its block contents alone and does not fail when the
blocks contradict the topology line (see the counterexample), failing only
on an empty block. -/
theorem c7_forma_costruita :
    (∀ (info : List (Strato α)) (tasso : α) (rnd : ℕ → ℕ → ℕ → α),
        formaCoerente (nuova info tasso rnd) = true) ∧
      ∀ (dims : List ℕ) (tasso : α) (f : FunzioneAttivazione α)
        (rnd : ℕ → ℕ → ℕ → α),
        formaCoerente (nuova_rete_uniforme dims tasso f rnd) = true := by
  constructor
  · intro info tasso rnd
    exact formaCoerente_costruita (info.map (·.neuroni)) _ tasso rnd
  · intro dims tasso f rnd
    exact formaCoerente_costruita dims [f] tasso rnd

/-- C8 counterexample: the activation code `LeakyReLU_x` is not one of the
recognized codes, yet it does not degrade to Identity: the `alpha` parse
`unwrap` panics (modelled by `none`), so a load encountering it fails. -/
theorem c8_controesempio :
    parseFunzione ofDecZ "LeakyReLU_x".data = none ∧
      carica_pesi_txt ofDecZ reteVuota ["[*]  LeakyReLU_x; ".data] = none := by decide

omit [LinearOrderedCommRing α] in
/-- C8 amended: an unrecognized activation code that does not begin with
`LeakyReLU_` maps to the Identity activation (`Nessuna`) and loading
proceeds; a code beginning with `LeakyReLU_` whose remainder does not parse
as a number instead aborts the load (see the counterexample). -/
theorem c8_codice_sconosciuto_nessuna (ofDec : ℤ → ℕ → α) (nome : List Char)
    (h1 : "LeakyReLU_".data.isPrefixOf nome = false)
    (h2 : nome ≠ "Sigmoide".data) (h3 : nome ≠ "ReLU".data) (h4 : nome ≠ "Tanh".data)
    (h5 : nome ≠ "Softplus".data) (h6 : nome ≠ "Swish".data)
    (h7 : nome ≠ "Lineare".data) :
    parseFunzione ofDec nome = some .Nessuna := by
  simp [parseFunzione, h1, h2, h3, h4, h5, h6, h7]

/-- Witness for C8's amended claim at the unknown code `Foo`. -/
theorem c8_codice_sconosciuto_nessuna_witness :
    parseFunzione ofDecZ "Foo".data = some .Nessuna :=
  c8_codice_sconosciuto_nessuna ofDecZ "Foo".data (by decide) (by decide) (by decide)
    (by decide) (by decide) (by decide) (by decide)

/-- C4: in every backpropagation run launched by a forward pass, the vectors
`derivata` is mapped over are exactly the recorded post-activation stage
vectors — the final stage for the initial delta, then stages `L-1` down to 1
— and each of those vectors is the image of a weighted sum under `attiva`:
the derivative is never applied to a pre-activation weighted sum. -/
theorem c4_derivata_su_valori_attivati (p : Prim α) (r : ReteNeurale α)
    (input target : List α) (uscite : List (List α)) (hL : 1 ≤ r.strati.length)
    (hfwd : propagazione_avanti p r input = some uscite) :
    derivataArgomenti p r uscite target = some ((uscite.drop 1).reverse) ∧
      ∀ v ∈ uscite.drop 1, ∃ z f, v = List.map (attiva p f) z := by
  have hF2 := due_funzioni_of_fwd p r input uscite hfwd hL
  obtain ⟨l, hl, hfst, hlen, hpost⟩ :=
    fwdAux_spec p r.funzioni_attivazione hF2 r.strati input 1 le_rfl (by omega)
  have husc : uscite = input :: l.map Prod.snd := by
    unfold propagazione_avanti at hfwd
    rw [hl] at hfwd
    exact (Option.some.inj hfwd).symm
  have hslen : (l.map Prod.snd).length = r.strati.length := by
    rw [List.length_map, hlen]
  constructor
  · simp only [derivataArgomenti,
      deltaIniziale_eq_specDeltas p r uscite target (by omega)]
    rw [enum_reverse_eq r.strati ⟨0, 0, []⟩]
    have hstep := retroLoop_spec p r.funzioni_attivazione r.tasso_apprendimento r.strati
      uscite target (by omega) (r.strati.length - 1) (by omega)
    rw [(by omega : r.strati.length - 1 + 1 = r.strati.length), mirroredIdx_self,
      (by omega : r.strati.length - 1 - (r.strati.length - 1) = 0)] at hstep
    rw [hstep]
    simp only [Option.map_some']
    congr 1
    rw [husc, ← hslen]
    exact coda_reverse (l.map Prod.snd) input (by omega)
  · intro v hv
    rw [husc] at hv
    simp only [List.drop_succ_cons, List.drop_zero] at hv
    obtain ⟨q, hq, hqv⟩ := List.mem_map.mp hv
    obtain ⟨z, f, hz⟩ := hpost q hq
    exact ⟨z, f, by rw [← hqv, hz]⟩

/-- Witness for C4 at a concrete network and forward run. -/
theorem c4_derivata_su_valori_attivati_witness :
    (derivataArgomenti pZero
        (⟨[⟨1, 1, [[1]]⟩, ⟨1, 1, [[1]]⟩], [.Nessuna, .Lineare], 1, [1, 1, 1]⟩ :
          ReteNeurale ℤ) [[1], [1], [1]] [0] =
      some (([[1], [1], [1]].drop 1).reverse)) ∧
      ∀ v ∈ [[1], [1], [1]].drop 1, ∃ z f, v = List.map (attiva pZero f) z :=
  c4_derivata_su_valori_attivati pZero
    ⟨[⟨1, 1, [[1]]⟩, ⟨1, 1, [[1]]⟩], [.Nessuna, .Lineare], 1, [1, 1, 1]⟩
    [1] [0] [[1], [1], [1]] (by decide) (by decide)

/-- The uniform network of C1's failing input: one activation code
(`Sigmoide`), two layer sizes. -/
def reteUniformeSalvata : ReteNeurale ℤ := ⟨[⟨1, 1, [[1]]⟩], [.Sigmoide], 1, [1, 1]⟩

theorem optionBindSome {β γ : Type} (a : β) (f : β → Option γ) :
    (some a >>= f : Option γ) = f a := rfl

theorem processa_codice_sigmoide_mk (ofDec : ℤ → ℕ → ℤ) (t : ℤ) (dm : List ℕ)
    (sr : List (Matrice ℤ)) (att : List (List ℤ)) (fz : List (FunzioneAttivazione ℤ)) :
    processaLinea ofDec ⟨t, fz, dm, sr, att⟩ "[*]  Sigmoide; ".data =
      some ⟨t, fz ++ [.Sigmoide], dm, sr, att⟩ := rfl

/-- C1: the round-trip claim (`save ∘ load ∘ save` byte-identical for every
network) already fails at the load: for any uniform network the saved file
carries one activation code and at least two topology sizes, so reloading it
hits the out-of-bounds read of C10 in the topology-line loop and panics
(modelled by `none`) — for every float printer `pr`, every decimal
conversion `ofDec` and every initial network `r`. -/
theorem c1_salva_carica_fallisce (pr : ℤ → List Char) (ofDec : ℤ → ℕ → ℤ)
    (r : ReteNeurale ℤ) :
    carica_pesi_txt ofDec r (salva_pesi_txt pr reteUniformeSalvata) = none := by
  have hs : salva_pesi_txt pr reteUniformeSalvata =
      ("[+] ".data ++ " ".data ++ pr 1) :: "[*]  Sigmoide; ".data :: "[#]  1, 1".data ::
        List.intercalate " ".data [pr 1] :: "---".data :: [] := rfl
  rw [hs]
  unfold carica_pesi_txt
  rw [List.foldlM_cons]
  rcases h1 : processaLinea ofDec
      (⟨r.tasso_apprendimento, [], r.dimensioni_strati, [], []⟩ : StatoCarica ℤ)
      ("[+] ".data ++ " ".data ++ pr 1) with _ | st1
  · rfl
  · have hpre : "[+] ".data.isPrefixOf ("[+] ".data ++ " ".data ++ pr 1) = true := by
      rw [List.append_assoc]
      exact isPrefixOf_append_self _ _
    obtain ⟨hf, hd, hsr, hat⟩ := processa_tasso_frame ofDec _ st1 _ hpre h1
    obtain ⟨t1, fz1, dm1, sr1, at1⟩ := st1
    change fz1 = [] at hf
    change dm1 = r.dimensioni_strati at hd
    change sr1 = [] at hsr
    change at1 = [] at hat
    subst hf hd hsr hat
    have hchain : List.foldlM (processaLinea ofDec)
        (⟨t1, [], r.dimensioni_strati, [], []⟩ : StatoCarica ℤ)
        ("[*]  Sigmoide; ".data :: "[#]  1, 1".data ::
          List.intercalate " ".data [pr 1] :: "---".data :: []) = none := by
      rw [List.foldlM_cons, processa_codice_sigmoide_mk, optionBindSome,
        List.foldlM_cons,
        processa_topologia_oob_uniforme ofDec t1
          ([] ++ [FunzioneAttivazione.Sigmoide] : List (FunzioneAttivazione ℤ))
          r.dimensioni_strati [] [] rfl]
      rfl
    rw [optionBindSome, hchain]
    rfl

end ReteNeuraleMLP
